import Mathlib

/-!
Verification of the `byzantine` peer-to-peer node against its specification.

The Python sources are shallowly embedded: each Python method becomes a pure
Lean function over explicit state; fallible Python code (statements that can
raise) returns `Except PyErr`; Python values that are `str | None` become
`Option String`; the wall clock is an abstract rational; JSON values decoded
from datagrams become the inductive `JValue`.
-/

/-- A Python value that is a string or `None` (`str | None`). -/
abbrev Val := Option String

/-- Python exceptions that the embedded code can raise. -/
inductive PyErr where
  | typeError
  | indexError
deriving Repr, DecidableEq

/-- `db_server.DB_SIZE = 5`. -/
def DB_SIZE : Nat := 5

/-- Python truthiness of a `str | None` value: `None` and `""` are falsy. -/
def pyTruthy (v : Val) : Bool :=
  match v with
  | none => false
  | some s => s ≠ ""

/-- Python `any(...)` over a list of `str | None` values
(used by `db_server.DBServer.init_db` as `any(self.db.all())`). -/
def pyAny (l : List Val) : Bool := l.any pyTruthy

/-- `db_server.Database`: the `_db` list of `DB_SIZE` entries plus the
`lying` flag.  The `Locked` wrapper is elided: every operation is embedded
as an atomic function of this state. -/
structure Database where
  entries : List Val
  lying : Bool
deriving Repr, DecidableEq

/-- `db_server.Database.__init__`: `[None] * DB_SIZE`, not lying. -/
def Database.init : Database := ⟨List.replicate DB_SIZE none, false⟩

/-- `db_server.Database.get`: `word = self._db.obj[index]` raises
`IndexError` when `index` is out of range (negative Python indices are not
used by this program and are not modelled); then `if self.lying: word += " lie"`
raises `TypeError` when `word` is `None`, since `None + str` is ill-typed. -/
def Database.get (d : Database) (index : Nat) : Except PyErr Val :=
  match d.entries.get? index with
  | none => .error .indexError
  | some w =>
    if d.lying then
      match w with
      | none => .error .typeError
      | some s => .ok (some (s ++ " lie"))
    else .ok w

/-- `db_server.Database.set`: `self._db.obj[index] = word`; list index
assignment raises `IndexError` out of range, else replaces in place.
Unaffected by `lying`. -/
def Database.set (d : Database) (index : Nat) (word : Val) : Except PyErr Database :=
  if index < d.entries.length then
    .ok { d with entries := d.entries.set index word }
  else .error .indexError

/-- `db_server.Database.all`: return a copy of the database, unaffected by
`lying`. -/
def Database.all (d : Database) : List Val := d.entries

/-- `db_server.Database.reset`: `self._db.obj = db` — full replacement,
"Not checked for errors". -/
def Database.reset (d : Database) (db : List Val) : Database :=
  { d with entries := db }

/-- `db_server.Database.lie`. -/
def Database.lie (d : Database) : Database := { d with lying := true }

/-- `db_server.Database.truth`. -/
def Database.truth (d : Database) : Database := { d with lying := false }

/-- Modelled from the spec: `Database.get_no_lie` is called at
`consensus_server.py:120` but defined nowhere under `src/`.  The spec says
the consensus result is written via `set` and "returns it to the operator",
ignoring lying, so `get_no_lie` reads the stored entry raw, without the
lying taint (out-of-range reads yield `none`; `do_consensus` only calls it
at the index it has just `set`). -/
def Database.get_no_lie (d : Database) (index : Nat) : Val :=
  d.entries.getD index none

/-- The validation `init_db` performs on a database list, here on the Lean
side for `Database` contents: a list of exactly `DB_SIZE` entries (entries
are `str | None` by the type `Val`). -/
def validDbList (l : List Val) : Bool := l.length == DB_SIZE

/-- `peer.Peer`: identity `(name, host, port)` plus mutable `last` (liveness
timestamp, an abstract tick count) and `word` (last word received). -/
structure Peer where
  name : String
  host : String
  port : Nat
  last : Nat
  word : Val
deriving Repr, DecidableEq

/-- The identity triple carried by `GOSSIP` / `GOSSIP_REPLY` envelopes and
consumed by `update_peers` (`data["name"]`, `data["host"]`, `data["port"]`). -/
structure PeerInfo where
  name : String
  host : String
  port : Nat
deriving Repr, DecidableEq

/-- The payload of a `GOSSIP` datagram: identity plus `messageID`. -/
structure GossipData extends PeerInfo where
  messageID : String
deriving Repr, DecidableEq

/-- `gossip.Gossip`: cached gossip record, keeping `id = data["messageID"]`,
`peer_name = data["name"]` and the original datagram for forwarding. -/
structure Gossip where
  id : String
  peer_name : String
  data : GossipData
deriving Repr, DecidableEq

/-- `gossip.Gossip.__init__` from a received datagram. -/
def Gossip.ofData (data : GossipData) : Gossip :=
  ⟨data.messageID, data.name, data⟩

/-- An outbound UDP datagram emitted by a handler.  `forward` is
`gossip.Gossip.forward` (the original datagram, unmodified); `gossip_reply`
is `peer.Peer.reply_gossip`; `set_cmd` is the `SET(index, value)` datagram
of `Peer.set` (see `send_set`). -/
inductive Msg where
  | forward (data : GossipData) (dest : Peer)
  | gossip_reply (host : String) (port : Nat) (name : String) (dest : Peer)
  | set_cmd (index : Nat) (word : String) (dest : Peer)
deriving Repr, DecidableEq

/-- The per-node mutable state touched by the gossip/peer handlers: local
identity plus the peer table (`peers`, an insertion-ordered `name → Peer`
dict embedded as an association list) and the gossip cache (`gossips`).
The `Locked` wrappers are elided; handlers run atomically here. -/
structure NodeState where
  name : String
  host : String
  port : Nat
  peers : List (String × Peer)
  gossips : List Gossip
deriving Repr, DecidableEq

/-- `gossip_server.PeerServer.get_peers`: `list(self.peers.obj.values())`. -/
def get_peers (st : NodeState) : List Peer := st.peers.map (·.2)

/-- `gossip_server.PeerServer.update_peers`: self-echo (`data["name"] ==
self.name`) returns `None` and changes nothing; an unknown name inserts a
fresh `Peer` with `last = now`; a known name refreshes `last = now` in
place (Python dicts keep insertion order on update). -/
def update_peers (st : NodeState) (now : Nat) (info : PeerInfo) :
    NodeState × Option Peer :=
  if info.name = st.name then (st, none)
  else
    match st.peers.find? (fun q => q.1 == info.name) with
    | none =>
      let peer : Peer := ⟨info.name, info.host, info.port, now, none⟩
      ({ st with peers := st.peers ++ [(info.name, peer)] }, some peer)
    | some q =>
      let peer := { q.2 with last := now }
      ({ st with peers :=
          st.peers.map (fun p => if p.1 == info.name then (p.1, peer) else p) },
        some peer)

/-- `gossip_server.GossipServer.gossip_received`.  `last` is the first
cached record with the originator's name; admission requires
`not last or last.id != gossip.id`; on admission `update_peers` runs and,
unless it returned `None` (self-echo), the new record is appended and the
old one removed, the original datagram is forwarded to `sample` (the
`random.sample(peers, min(FORWARD_AMOUNT, len(peers)))` drawn by the
caller's snapshot, passed in here as a parameter), and a `GOSSIP_REPLY` is
unicast back to the admitted peer. -/
def gossip_received (st : NodeState) (now : Nat) (data : GossipData)
    (sample : List Peer) : NodeState × List Msg :=
  let gossip := Gossip.ofData data
  let last := st.gossips.find? (fun g => g.peer_name == data.name)
  if last.all (fun g => g.id != data.messageID) then
    match update_peers st now data.toPeerInfo with
    | (st1, none) => (st1, [])
    | (st1, some peer) =>
      let gs := st1.gossips ++ [gossip]
      let gs' := match last with
        | some l => gs.erase l
        | none => gs
      ({ st1 with gossips := gs' },
        sample.map (Msg.forward data) ++
          [Msg.gossip_reply st.host st.port st.name peer])
  else (st, [])

/-- `gossip_server.GossipServer.gossip_reply_received`: peer-table update
only. -/
def gossip_reply_received (st : NodeState) (now : Nat) (info : PeerInfo) :
    NodeState :=
  (update_peers st now info).1

/-- The handler `server.Server.handle_message` selects for a decoded
inbound datagram. -/
inductive Dispatch where
  | gossip_handler
  | gossip_reply_handler
  | invalid (command : String)
deriving Repr, DecidableEq

/-- `server.Server.handle_message` (the only UDP dispatcher under `src/`):
`data["command"]` is compared against `"GOSSIP"` and `"GOSSIP_REPLY"`;
every other command reaches the `else` branch, which logs
`Invalid command received` and discards the datagram. -/
def handle_message (command : String) : Dispatch :=
  if command == "GOSSIP" then .gossip_handler
  else if command == "GOSSIP_REPLY" then .gossip_reply_handler
  else .invalid command

/-- A decoded JSON value, as Python's `json.loads` produces it (objects are
not needed by the claims settled here). -/
inductive JValue where
  | null
  | str (s : String)
  | num (n : Int)
  | list (l : List JValue)

/-- Python `repr` of a `str | None` value as `str(list)` renders its
elements: `None` for `None`, the string between single quotes otherwise
(quote/backslash escaping inside the string is not modelled; no claim
depends on it). -/
def pyRepr (v : Val) : String :=
  match v with
  | none => "None"
  | some s => "'" ++ s ++ "'"

/-- Python `str` of a list of `str | None` values:
`"[" + ", ".join(repr(elem)) + "]"`. -/
def pyListRepr (l : List Val) : String :=
  "[" ++ String.intercalate (", ") (l.map pyRepr) ++ "]"

/-- The `QUERY-REPLY` envelope `db_server.DBServer.query_received` sends:
`json.dumps` of `command` and `database`, where the `database` field is
`str(self.db.all())` — the textual `str()` rendering, a JSON *string*. -/
structure QueryReply where
  command : String
  database : JValue

/-- `db_server.DBServer.query_received`: reply built from the raw snapshot
`self.db.all()` (the `lying` flag is never consulted on this path). -/
def query_received (d : Database) : QueryReply :=
  ⟨"QUERY-REPLY", .str (pyListRepr (Database.all d))⟩

/-- The validation `db_server.DBServer.init_db` applies to a queued
`QUERY-REPLY` database value (a decoded JSON value): it asserts
`isinstance(db, list) and len(db) == DB_SIZE` and that every element is a
`str` or `None` (JSON decodes those to Python `str` and `None`). -/
def validDbJson (v : JValue) : Bool :=
  match v with
  | .list l =>
    l.length == DB_SIZE &&
      l.all (fun e =>
        match e with
        | .str _ => true
        | .null => true
        | _ => false)
  | _ => false

/-- The Python list `db_server.DBServer.init_db` passes to `db.reset` once a
queued reply validated: the decoded JSON list as `str | None` entries
(validation guarantees every element is a string or null). -/
def jsonToDb (v : JValue) : List Val :=
  match v with
  | .list l =>
    l.map (fun e =>
      match e with
      | .str s => some s
      | _ => none)
  | _ => []

/-- One iteration of `init_db`'s retry loop, as the outside world determines
it: the `get_peers()` snapshot for the iteration, the index `random.choice`
draws (reduced mod the table size), and — when a `QUERY` is actually sent —
whether the 5 s queue wait times out or yields a decoded `database` value.
(The queue is drained before each send, so earlier iterations' leftovers
never surface; each sent query consumes its own step's outcome.) -/
structure BootStep where
  peers : List Peer
  pick : Nat
  outcome : Option JValue

/-- How `init_db`'s loop ended: `gaveUp` models the two `return` statements
("Abandoning DB initialization"), `got db` the `break` on a validated
reply, and `exhausted` the model boundary — the supplied trace ran out with
the loop still running (no reset has happened yet at that point). -/
inductive BootResult where
  | gaveUp
  | exhausted
  | got (db : JValue)

/-- The retry loop of `db_server.DBServer.init_db`, one `BootStep` per
iteration.  `count` and `bad` mirror the local `count` and `bad_peers`;
`random.choice` raises `IndexError` exactly on an empty table (then:
`count += 1`, give up at `count >= 10`, else sleep and retry); an
already-bad pick also counts and gives up when `len(bad_peers) ==
len(self.get_peers())` or `count >= 10`; otherwise the `QUERY` is sent and
a timeout or an invalid reply marks the peer bad *without* counting, while
a valid reply breaks the loop.  (Both `get_peers()` calls of one iteration
read the same snapshot here.) -/
def bootLoop : List BootStep → Nat → List Peer → BootResult
  | [], _, _ => .exhausted
  | step :: rest, count, bad =>
    match step.peers.get? (step.pick % step.peers.length) with
    | none =>
      if count + 1 ≥ 10 then .gaveUp else bootLoop rest (count + 1) bad
    | some peer =>
      if peer ∈ bad then
        if bad.length = step.peers.length ∨ count + 1 ≥ 10 then .gaveUp
        else bootLoop rest (count + 1) bad
      else
        match step.outcome with
        | none => bootLoop rest count (bad ++ [peer])
        | some db =>
          if validDbJson db then .got db
          else bootLoop rest count (bad ++ [peer])

/-- `db_server.DBServer.init_db`: run the retry loop from `count = 0`,
`bad_peers = {}`, then `if not any(self.db.all()): self.db.reset(db)` —
the received database is applied only when every local entry is falsy
(Python `any`), and only when the loop broke on a validated reply. -/
def init_db (d : Database) (trace : List BootStep) : Database :=
  match bootLoop trace 0 [] with
  | .got db => if pyAny (Database.all d) then d else Database.reset d (jsonToDb db)
  | _ => d

/-- A `collections.Counter` as `Consensus.replies` uses it: an
insertion-ordered mapping value → count, embedded as an association list. -/
abbrev Counter (α : Type) := List (α × Nat)

/-- `counter[v] += 1`: bump an existing key in place, or append a fresh key
with count 1 (Python dicts append new keys at the end). -/
def counterIncr {α : Type} [DecidableEq α] (c : Counter α) (v : α) : Counter α :=
  if c.any (fun p => p.1 == v) then
    c.map (fun p => if p.1 == v then (p.1, p.2 + 1) else p)
  else c ++ [(v, 1)]

/-- The counter built by delivering values in order (the `notify` calls of
`consensus_server.Consensus` as replies arrive). -/
def counterOf {α : Type} [DecidableEq α] (l : List α) : Counter α :=
  l.foldl counterIncr []

/-- `Counter.most_common(1)[0]`: `heapq.nlargest(1, items, key=count)` is
stable — among equal counts the earliest-inserted entry wins — so this is
the first entry holding the maximal count. -/
def mostCommonEntry {α : Type} : Counter α → Option (α × Nat)
  | [] => none
  | p :: rest =>
    match mostCommonEntry rest with
    | none => some p
    | some q => some (if q.2 > p.2 then q else p)

/-- `Counter.most_common(1)[0][0]`. -/
def mostCommon1 {α : Type} (c : Counter α) : Option α :=
  (mostCommonEntry c).map (·.1)

/-- `consensus_server.Consensus.execute`, after the wait: the reply counter
holds the values delivered by `notify` before the wait ended (`replies`,
in arrival order); then `self.replies.obj[self.received] += 1` and the
result is `most_common(1)[0][0]`.  The counter is never empty after the
increment, so the `getD` default is unreachable (proved in
`mostCommon1_counterIncr_isSome`). -/
def Consensus.execute (replies : List Val) (received : Val) : Val :=
  (mostCommon1 (counterIncr (counterOf replies) received)).getD received

/-- `consensus_server.ConsensusServer.do_consensus`: register, send, wait
(all elided into the delivered `replies` list), then
`self.db.set(index, consensus.execute(...))` — which raises `IndexError`
out of range — unregister, and `return self.db.get_no_lie(index)`. -/
def do_consensus (d : Database) (index : Nat) (replies : List Val)
    (received : Val) : Except PyErr (Database × Val) :=
  match Database.set d index (Consensus.execute replies received) with
  | .error e => .error e
  | .ok d' => .ok (d', Database.get_no_lie d' index)

/-- `consensus_server.CONSENSUS_TIME = 10` (seconds; the clock is ℚ). -/
def CONSENSUS_TIME : ℚ := 10

/-- Round a rational to the nearest integer, ties to the even one — the
tie-breaking rule of IEEE 754 binary64 arithmetic. -/
def roundHalfEven (q : ℚ) : ℤ :=
  if q - ⌊q⌋ < 1/2 then ⌊q⌋
  else if 1/2 < q - ⌊q⌋ then ⌊q⌋ + 1
  else if ⌊q⌋ % 2 = 0 then ⌊q⌋ else ⌊q⌋ + 1

/-- Binary64 round-to-nearest-even of a non-negative rational in the
normal, non-overflowing range (which covers every quotient this program
forms): the value is rounded to the nearest multiple of
`ulp = 2 ^ (e - 52)`, where `2 ^ e ≤ x < 2 ^ (e + 1)` — i.e. to 53
significant bits — with ties to even; zero maps to zero.  CPython's
`int / int` true division returns exactly this correctly rounded binary64
value (`long_true_divide`). -/
def roundB64 (x : ℚ) : ℚ :=
  if x ≤ 0 then 0
  else (roundHalfEven (x / 2 ^ (Int.log 2 x - 52)) : ℚ) * 2 ^ (Int.log 2 x - 52)

/-- `consensus_server.ConsensusServer.determine_OM`:
`int(len(self.peers.obj) / 3)` — CPython true division of the table size
by 3 produces the correctly rounded binary64 quotient (`roundB64`), and
`int()` truncates it toward zero, which on a non-negative value is the
floor. -/
def determine_OM (n : Nat) : Nat := ⌊roundB64 ((n : ℚ) / 3)⌋₊

/-- The argument tuple `start_consensus` hands `do_consensus`. -/
structure ConsensusCall where
  OM : Nat
  index : Nat
  value : Val
  received : Val
  peers : List Peer
  due : ℚ
deriving DecidableEq

/-- `consensus_server.ConsensusServer.start_consensus`: a fresh console
consensus on `index` calls `do_consensus(self.determine_OM(), index,
self.db.get(index), None, self.get_peers(), time() + CONSENSUS_TIME)`
(`db.get` may raise, e.g. `TypeError` when lying over an absent entry). -/
def start_consensus (d : Database) (st : NodeState) (index : Nat)
    (now : ℚ) : Except PyErr ConsensusCall :=
  match Database.get d index with
  | .error e => .error e
  | .ok v =>
    .ok ⟨determine_OM st.peers.length, index, v, none, get_peers st,
      now + CONSENSUS_TIME⟩

/-- Modelled from the spec: `Peer.set` is called at `db_server.py:107` but
defined nowhere under `src/`.  The spec's dispatcher table gives the `SET`
datagram payload `index, value`, broadcast to a peer; like
`Peer.reply_gossip` / `Peer.gossip` it composes and sends one datagram. -/
def Peer.set_msg (p : Peer) (index : Nat) (word : String) : Msg :=
  Msg.set_cmd index word p

/-- `db_server.DBServer.send_set`: `self.set(index, word)` (which is
`self.db.set`, raising `IndexError` out of range, in which case nothing is
sent), then one `SET` datagram per peer of `self.get_peers()`. -/
def send_set (d : Database) (st : NodeState) (index : Nat) (word : String) :
    Except PyErr (Database × List Msg) :=
  match Database.set d index (some word) with
  | .error e => .error e
  | .ok d' => .ok (d', (get_peers st).map (fun p => Peer.set_msg p index word))

/-- `db_server.DBServer.cli_set`: acknowledge on the console socket
(elided) and `self.send_set(int(index), str(word))`. -/
def cli_set (d : Database) (st : NodeState) (index : Nat) (word : String) :
    Except PyErr (Database × List Msg) :=
  send_set d st index word

/-- The database states the running node can reach: the initial all-absent
database; `set` (console `set`, or a consensus write) when it succeeds;
`reset` only as `init_db` performs it, i.e. with a list that passed the
`DB_SIZE`-length validation; `lie`/`truth` toggles. -/
inductive Reachable : Database → Prop where
  | init : Reachable Database.init
  | step_set {d d' : Database} {i : Nat} {w : Val} :
      Reachable d → Database.set d i w = .ok d' → Reachable d'
  | step_reset {d : Database} {l : List Val} :
      Reachable d → validDbList l = true → Reachable (Database.reset d l)
  | step_lie {d : Database} : Reachable d → Reachable (Database.lie d)
  | step_truth {d : Database} : Reachable d → Reachable (Database.truth d)

/-- First-occurrence order of a list: the keys a Python dict (or `Counter`)
acquires while the list's elements are inserted left to right. -/
def firstOcc {α : Type} [DecidableEq α] (l : List α) : List α :=
  l.foldl (fun acc v => if v ∈ acc then acc else acc ++ [v]) []

/-- The spec's plurality: `r` is a most-frequent element of `l`, and among
the most-frequent ones the first seen (its first occurrence in `l` is
earliest). -/
def isPlurality {α : Type} [DecidableEq α] (l : List α) (r : α) : Prop :=
  r ∈ l ∧ (∀ v, l.count v ≤ l.count r) ∧
    ∀ v ∈ l, l.count v = l.count r → l.indexOf r ≤ l.indexOf v

/-- The gossip-cache invariant: at most one record per originator name,
i.e. cached records carry pairwise distinct `peer_name`s. -/
def gossipCacheOk (gossips : List Gossip) : Prop :=
  List.Pairwise (fun a b => a.peer_name ≠ b.peer_name) gossips

/-- Claim C10: for an in-range index, if `lying` is set and the stored
entry is absent then `Database.get` raises `TypeError` rather than
returning; `get` succeeds exactly when the entry is a string or `lying` is
unset. -/
theorem claim_C10 (d : Database) (i : Nat) (h : i < d.entries.length) :
    (d.lying = true → d.entries[i]? = some none →
      Database.get d i = .error .typeError) ∧
    ((∃ v, Database.get d i = .ok v) ↔
      (d.lying = false ∨ ∃ s, d.entries[i]? = some (some s))) := by
  rcases hw : d.entries[i]? with _ | w
  · rw [List.getElem?_eq_none_iff] at hw
    omega
  rcases hl : d.lying <;> rcases w with _ | s <;>
    simp [Database.get, List.get?_eq_getElem?, hw, hl]

/-- Witness for C10 at a concrete database. -/
theorem claim_C10_witness :
    Database.get ⟨[none, some "a"], true⟩ 0 = .error .typeError :=
  (claim_C10 ⟨[none, some "a"], true⟩ 0 (by decide)).1 rfl rfl

/-- Rounding to the nearest integer moves a rational by at most a half. -/
theorem roundHalfEven_bounds (q : ℚ) :
    q - 1/2 ≤ (roundHalfEven q : ℚ) ∧ (roundHalfEven q : ℚ) ≤ q + 1/2 := by
  have h1 : (⌊q⌋ : ℚ) ≤ q := Int.floor_le q
  have h2 : q < ⌊q⌋ + 1 := Int.lt_floor_add_one q
  unfold roundHalfEven
  split_ifs with ha hb hc <;> constructor <;> push_cast <;> linarith

/-- Rounding to the nearest integer fixes integers. -/
theorem roundHalfEven_intCast (m : ℤ) : roundHalfEven (m : ℚ) = m := by
  unfold roundHalfEven
  rw [Int.floor_intCast]
  rw [if_pos (by rw [sub_self]; norm_num)]

/-- The binade of a rational in `[2 ^ 52, 2 ^ 53)`. -/
theorem int_log2_eq_52 {x : ℚ} (h1 : (2:ℚ) ^ (52:ℤ) ≤ x)
    (h2 : x < (2:ℚ) ^ (53:ℤ)) : Int.log 2 x = 52 := by
  have hx : (0:ℚ) < x := lt_of_lt_of_le (by positivity) h1
  have h1' : ((2:ℕ):ℚ) ^ (52:ℤ) ≤ x := by exact_mod_cast h1
  have h2' : x < ((2:ℕ):ℚ) ^ (53:ℤ) := by exact_mod_cast h2
  have hle : (52:ℤ) ≤ Int.log 2 x := (Int.zpow_le_iff_le_log (by norm_num) hx).1 h1'
  have hlt : Int.log 2 x < 53 := (Int.lt_zpow_iff_log_lt (by norm_num) hx).1 h2'
  omega

/-- Below the first failing table size, truncated binary64 division by 3
agrees with the exact floor: for every `n < 3 * 2 ^ 52 + 2`,
`determine_OM n = n / 3`.  (For `n` up to `3 * 2 ^ 52 - 1` the quotient
lies below `2 ^ 52`, so the rounding error of at most `ulp / 2 ≤ 1/4`
cannot carry `k + 1/3` or `k + 2/3` across an integer, and exact
quotients are represented exactly; the two boundary sizes with quotient
in `[2 ^ 52, 2 ^ 52 + 1/3]` are checked directly.) -/
theorem determine_OM_eq_div (n : Nat) (h : n < 13510798882111490) :
    determine_OM n = n / 3 := by
  rcases Nat.eq_zero_or_pos n with rfl | hn
  · simp [determine_OM, roundB64]
  by_cases hbig : n < 13510798882111488
  · -- the quotient lies strictly below 2^52
    unfold determine_OM
    have hx0 : (0:ℚ) < (n:ℚ)/3 := by positivity
    have hxlt : (n:ℚ)/3 < (2:ℚ)^(52:ℤ) := by
      rw [div_lt_iff₀ (by norm_num)]
      calc (n:ℚ) < 13510798882111488 := by exact_mod_cast hbig
        _ = (2:ℚ)^(52:ℤ) * 3 := by norm_num
    have hxlt' : (n:ℚ)/3 < ((2:ℕ):ℚ)^(52:ℤ) := by exact_mod_cast hxlt
    have he51 : Int.log 2 ((n:ℚ)/3) ≤ 51 := by
      have := (Int.lt_zpow_iff_log_lt (b := 2) (by norm_num) hx0).1 hxlt'
      omega
    set e := Int.log 2 ((n:ℚ)/3) with hedef
    set u : ℚ := (2:ℚ)^(e - 52) with hudef
    have hu0 : (0:ℚ) < u := zpow_pos (by norm_num) _
    have hu2 : u ≤ 1/2 := by
      calc u ≤ (2:ℚ)^((-1):ℤ) := zpow_le_zpow_right₀ (by norm_num) (by omega)
        _ = 1/2 := by norm_num
    have hrb : roundB64 ((n:ℚ)/3) =
        (roundHalfEven ((n:ℚ)/3 / u) : ℚ) * u := by
      rw [roundB64, if_neg (not_le.2 hx0), ← hedef, ← hudef]
    rw [hrb]
    obtain ⟨hlb, hub⟩ := roundHalfEven_bounds ((n:ℚ)/3 / u)
    have hRNlb : (n:ℚ)/3 - u/2 ≤ (roundHalfEven ((n:ℚ)/3 / u) : ℚ) * u := by
      have hmul := mul_le_mul_of_nonneg_right hlb (le_of_lt hu0)
      rw [sub_mul, div_mul_cancel₀ _ (ne_of_gt hu0)] at hmul
      linarith
    have hRNub : (roundHalfEven ((n:ℚ)/3 / u) : ℚ) * u ≤ (n:ℚ)/3 + u/2 := by
      have hmul := mul_le_mul_of_nonneg_right hub (le_of_lt hu0)
      rw [add_mul, div_mul_cancel₀ _ (ne_of_gt hu0)] at hmul
      linarith
    have hxk : (n:ℚ)/3 = ((n/3 : ℕ):ℚ) + ((n % 3 : ℕ):ℚ)/3 := by
      have hnm : (n:ℚ) = 3 * ((n/3 : ℕ):ℚ) + ((n % 3 : ℕ):ℚ) := by
        exact_mod_cast congrArg (Nat.cast (R := ℚ)) (Nat.div_add_mod n 3).symm
      rw [hnm]
      ring
    have h3 : n % 3 = 0 ∨ n % 3 = 1 ∨ n % 3 = 2 := by omega
    rcases h3 with h3 | h3 | h3
    · -- exact quotient: the division result is representable exactly
      have hxk0 : (n:ℚ)/3 = ((n/3 : ℕ):ℚ) := by
        rw [hxk, h3]
        norm_num
      have hpw : (2:ℚ)^((52:ℤ) - e) = (2:ℚ)^(((52:ℤ) - e).toNat : ℕ) := by
        rw [show ((52:ℤ) - e) = ((((52:ℤ) - e).toNat : ℕ) : ℤ) from
          (Int.toNat_of_nonneg (by omega)).symm, zpow_natCast]
        rw [Int.toNat_of_nonneg (by omega)]
      have hxu : (n:ℚ)/3 / u = ((n/3 * 2 ^ ((52:ℤ) - e).toNat : ℕ) : ℚ) := by
        rw [hxk0, hudef, div_eq_mul_inv, ← zpow_neg, neg_sub, hpw]
        push_cast
        ring
      have hrhe : roundHalfEven ((n:ℚ)/3 / u) =
          ((n/3 * 2 ^ ((52:ℤ) - e).toNat : ℕ) : ℤ) := by
        rw [hxu]
        exact_mod_cast roundHalfEven_intCast ((n/3 * 2 ^ ((52:ℤ) - e).toNat : ℕ) : ℤ)
      have hback : (roundHalfEven ((n:ℚ)/3 / u) : ℚ) * u = (n:ℚ)/3 := by
        rw [hrhe]
        have hcast : ((((n/3 * 2 ^ ((52:ℤ) - e).toNat : ℕ) : ℤ)) : ℚ) =
            (n:ℚ)/3 / u := by
          rw [hxu]
          norm_cast
        rw [hcast, div_mul_cancel₀ _ (ne_of_gt hu0)]
      rw [hback, hxk0, Nat.floor_natCast]
    · -- remainder 1: the quotient k + 1/3 rounds inside (k, k + 1)
      have hxlow : ((n/3 : ℕ):ℚ) + 1/3 ≤ (n:ℚ)/3 := by
        rw [hxk, h3]
        norm_num
      have hxhigh : (n:ℚ)/3 ≤ ((n/3 : ℕ):ℚ) + 2/3 := by
        rw [hxk, h3]
        norm_num
      rw [Nat.floor_eq_iff (by linarith)]
      exact ⟨by linarith, by linarith⟩
    · -- remainder 2: the quotient k + 2/3 rounds inside (k, k + 1)
      have hxlow : ((n/3 : ℕ):ℚ) + 1/3 ≤ (n:ℚ)/3 := by
        rw [hxk, h3]
        norm_num
      have hxhigh : (n:ℚ)/3 ≤ ((n/3 : ℕ):ℚ) + 2/3 := by
        rw [hxk, h3]
        norm_num
      rw [Nat.floor_eq_iff (by linarith)]
      exact ⟨by linarith, by linarith⟩
  · -- the two sizes with quotient in [2^52, 2^52 + 1/3]
    have hn2 : n = 13510798882111488 ∨ n = 13510798882111489 := by omega
    rcases hn2 with rfl | rfl
    · have hx0 : (0:ℚ) < (13510798882111488:ℚ)/3 := by norm_num
      have he : Int.log 2 ((13510798882111488:ℚ)/3) = 52 :=
        int_log2_eq_52 (by norm_num) (by norm_num)
      unfold determine_OM roundB64
      rw [show ((13510798882111488:ℕ):ℚ) = (13510798882111488:ℚ) from by norm_num]
      rw [if_neg (not_le.2 hx0), he]
      rw [show (52:ℤ) - 52 = 0 from by norm_num, zpow_zero, div_one, mul_one]
      rw [show (13510798882111488:ℚ)/3 = ((4503599627370496:ℤ):ℚ) from by norm_num]
      rw [roundHalfEven_intCast]
      norm_num
    · have hx0 : (0:ℚ) < (13510798882111489:ℚ)/3 := by norm_num
      have he : Int.log 2 ((13510798882111489:ℚ)/3) = 52 :=
        int_log2_eq_52 (by norm_num) (by norm_num)
      have hfl : ⌊(13510798882111489:ℚ)/3⌋ = 4503599627370496 := by
        rw [Int.floor_eq_iff]
        constructor <;> norm_num
      unfold determine_OM roundB64
      rw [show ((13510798882111489:ℕ):ℚ) = (13510798882111489:ℚ) from by norm_num]
      rw [if_neg (not_le.2 hx0), he]
      norm_num
      unfold roundHalfEven
      rw [hfl]
      rw [if_pos (by norm_num)]
      norm_num

/-- Counterexample to claim C4 as stated: at table size
`n = 13510798882111490 = 3 * 2 ^ 52 + 2` the exact quotient
`2 ^ 52 + 2/3` rounds to the binary64 value `2 ^ 52 + 1` (ulp is 1 in
that binade), so `int(n / 3)` — and hence `determine_OM` — returns
`⌊n / 3⌋ + 1`, not `⌊n / 3⌋`. -/
theorem claim_C4_cex :
    determine_OM 13510798882111490 = 4503599627370497 ∧
    13510798882111490 / 3 = 4503599627370496 := by
  refine ⟨?_, by norm_num⟩
  have hx0 : (0:ℚ) < (13510798882111490:ℚ)/3 := by norm_num
  have he : Int.log 2 ((13510798882111490:ℚ)/3) = 52 :=
    int_log2_eq_52 (by norm_num) (by norm_num)
  have hfl : ⌊(13510798882111490:ℚ)/3⌋ = 4503599627370496 := by
    rw [Int.floor_eq_iff]
    constructor <;> norm_num
  unfold determine_OM roundB64
  rw [show ((13510798882111490:ℕ):ℚ) = (13510798882111490:ℚ) from by norm_num]
  rw [if_neg (not_le.2 hx0), he]
  norm_num
  unfold roundHalfEven
  rw [hfl]
  rw [if_neg (by norm_num), if_pos (by norm_num)]
  norm_num

/-- Claim C4 (amended): for every peer table of size `n` below
`13510798882111490 = 3 * 2 ^ 52 + 2` — the first size at which binary64
rounding of the true division pushes `int(n / 3)` above the floor —
`determine_OM` returns exactly `⌊n / 3⌋`, and a fresh console consensus
(`start_consensus`) begins at OM level `⌊n / 3⌋`. -/
theorem claim_C4 :
    (∀ n : Nat, n < 13510798882111490 → determine_OM n = n / 3) ∧
    ∀ (d : Database) (st : NodeState) (index : Nat) (now : ℚ)
      (call : ConsensusCall), st.peers.length < 13510798882111490 →
        start_consensus d st index now = .ok call →
        call.OM = st.peers.length / 3 := by
  refine ⟨determine_OM_eq_div, ?_⟩
  intro d st index now call hlen hcall
  unfold start_consensus at hcall
  rcases hget : Database.get d index with e | v <;> rw [hget] at hcall
  · cases hcall
  · cases hcall
    exact determine_OM_eq_div st.peers.length hlen

/-- Witness for C4 at a concrete table size and node state. -/
theorem claim_C4_witness :
    determine_OM 7 = 7 / 3 ∧
    ∃ call : ConsensusCall,
      start_consensus ⟨[some "a"], false⟩ ⟨"n", "h", 1, [], []⟩ 0 0 = .ok call ∧
      call.OM = ([] : List (String × Peer)).length / 3 :=
  ⟨claim_C4.1 7 (by norm_num),
   ⟨_, rfl, claim_C4.2 ⟨[some "a"], false⟩ ⟨"n", "h", 1, [], []⟩ 0 0 _
      (by norm_num) rfl⟩⟩

/-- Claim C1 (code evaluated at the failing inputs): the dispatcher under
`src/` (`server.Server.handle_message`) routes only `GOSSIP` and
`GOSSIP_REPLY`; `SET`, `QUERY`, `QUERY-REPLY`, `CONSENSUS` and
`CONSENSUS-REPLY` all fall into the `Invalid command received` branch and
are discarded, contradicting the spec's dispatch table. -/
theorem claim_C1 :
    handle_message ("SET") = .invalid ("SET") ∧
    handle_message ("QUERY") = .invalid ("QUERY") ∧
    handle_message ("QUERY-REPLY") = .invalid ("QUERY-REPLY") ∧
    handle_message ("CONSENSUS") = .invalid ("CONSENSUS") ∧
    handle_message ("CONSENSUS-REPLY") = .invalid ("CONSENSUS-REPLY") ∧
    handle_message ("GOSSIP") = .gossip_handler ∧
    handle_message ("GOSSIP_REPLY") = .gossip_reply_handler :=
  ⟨rfl, rfl, rfl, rfl, rfl, rfl, rfl⟩

/-- Claim C5 (code evaluated at the failing input): the `database` field of
every `QUERY-REPLY` that `query_received` sends is the `str()` rendering of
the snapshot — a JSON *string*, not a list — so it never passes the
bootstrap task's validation (`isinstance(db, list)` fails); the field does
not depend on the `lying` flag. -/
theorem claim_C5 :
    (∀ d : Database,
      (query_received d).database = .str (pyListRepr d.entries) ∧
      validDbJson (query_received d).database = false ∧
      query_received (Database.lie d) = query_received d) ∧
    (query_received ⟨List.replicate DB_SIZE none, false⟩).database =
      .str ("[None, None, None, None, None]") := by
  refine ⟨fun d => ⟨rfl, rfl, rfl⟩, rfl⟩

/-- Claim C7: console `set i v` applies `db.set(i, v)` locally and sends
exactly one `SET(i, v)` datagram to every peer currently in the table. -/
theorem claim_C7 (d : Database) (st : NodeState) (i : Nat) (w : String)
    (h : i < d.entries.length) :
    ∃ d' msgs, cli_set d st i w = .ok (d', msgs) ∧
      d'.entries = d.entries.set i (some w) ∧ d'.lying = d.lying ∧
      msgs = (get_peers st).map (fun p => Peer.set_msg p i w) ∧
      msgs.length = st.peers.length := by
  have hset : Database.set d i (some w) =
      .ok ⟨d.entries.set i (some w), d.lying⟩ := by
    unfold Database.set
    rw [if_pos h]
  unfold cli_set send_set
  rw [hset]
  exact ⟨_, _, rfl, rfl, rfl, rfl, by simp [get_peers]⟩

/-- Witness for C7 at a concrete database and peer table. -/
theorem claim_C7_witness :
    ∃ d' msgs,
      cli_set ⟨[none, none], false⟩
          ⟨"n", "h", 1, [("p", ⟨"p", "ph", 2, 0, none⟩)], []⟩ 1 "cat" =
        .ok (d', msgs) ∧
      d'.entries = ([none, none] : List Val).set 1 (some "cat") ∧
      d'.lying = false ∧
      msgs = (get_peers ⟨"n", "h", 1, [("p", ⟨"p", "ph", 2, 0, none⟩)], []⟩).map
        (fun p => Peer.set_msg p 1 "cat") ∧
      msgs.length = [("p", (⟨"p", "ph", 2, 0, none⟩ : Peer))].length :=
  claim_C7 ⟨[none, none], false⟩ ⟨"n", "h", 1, [("p", ⟨"p", "ph", 2, 0, none⟩)], []⟩
    1 "cat" (by decide)

/-- `update_peers` on a self-echo returns the state unchanged with `None`. -/
theorem update_peers_self (st : NodeState) (now : Nat) (info : PeerInfo)
    (h : info.name = st.name) : update_peers st now info = (st, none) := by
  unfold update_peers
  rw [if_pos h]

/-- Claim C9: an inbound `GOSSIP` or `GOSSIP_REPLY` whose `name` equals the
local node's name leaves the peer table and the gossip cache unchanged and
sends nothing. -/
theorem claim_C9 (st : NodeState) (now : Nat) (data : GossipData)
    (sample : List Peer) (h : data.name = st.name) :
    gossip_received st now data sample = (st, []) ∧
    gossip_reply_received st now data.toPeerInfo = st := by
  have hup : update_peers st now data.toPeerInfo = (st, none) :=
    update_peers_self st now data.toPeerInfo h
  constructor
  · unfold gossip_received
    rw [hup]
    split
    next st1 heq =>
      injection heq with h1 h2
      subst h1
      exact ite_self _
    next st1 peer heq =>
      injection heq with h1 h2
      exact Option.noConfusion h2
  · unfold gossip_reply_received
    rw [hup]

/-- Witness for C9 at a concrete state and datagram. -/
theorem claim_C9_witness :
    gossip_received ⟨"n", "h", 1, [], []⟩ 0 ⟨⟨"n", "xh", 9⟩, "id1"⟩ [] =
        (⟨"n", "h", 1, [], []⟩, []) ∧
    gossip_reply_received ⟨"n", "h", 1, [], []⟩ 0
        (⟨⟨"n", "xh", 9⟩, "id1"⟩ : GossipData).toPeerInfo =
      ⟨"n", "h", 1, [], []⟩ :=
  claim_C9 ⟨"n", "h", 1, [], []⟩ 0 ⟨⟨"n", "xh", 9⟩, "id1"⟩ [] rfl

/-- Counterexample to claim C8 as stated: `Database.reset` does not
preserve the length invariant — resetting a well-formed database to the
empty list leaves a snapshot of length 0, not `DB_SIZE`. -/
theorem claim_C8_cex :
    (Database.all (Database.reset Database.init [])).length ≠ DB_SIZE := by
  decide

/-- Claim C8 (amended): `get`, `set` and `all` preserve the invariant
unconditionally — `set` preserves the snapshot length whether it succeeds
or raises — and `reset` preserves it exactly when its argument is itself a
`DB_SIZE`-length list of string-or-absent entries, which the only call
site (bootstrap, after validation) supplies; consequently every reachable
database state has a snapshot of length `DB_SIZE`. -/
theorem claim_C8 :
    (∀ (d : Database) (i : Nat) (w : Val) (d' : Database),
        Database.set d i w = .ok d' →
          (Database.all d').length = (Database.all d).length) ∧
    (∀ (d : Database) (l : List Val), validDbList l = true →
        (Database.all (Database.reset d l)).length = DB_SIZE) ∧
    (∀ d : Database, Reachable d → (Database.all d).length = DB_SIZE) := by
  have hset : ∀ (d : Database) (i : Nat) (w : Val) (d' : Database),
      Database.set d i w = .ok d' →
        (Database.all d').length = (Database.all d).length := by
    intro d i w d' hok
    unfold Database.set at hok
    split at hok
    · cases hok
      simp [Database.all]
    · cases hok
  refine ⟨hset, ?_, ?_⟩
  · intro d l hl
    simpa [Database.all, Database.reset, validDbList] using hl
  · intro d hreach
    induction hreach with
    | init => rfl
    | step_set hr hok ih => rw [hset _ _ _ _ hok, ih]
    | step_reset hr hl ih =>
      simpa [Database.all, Database.reset, validDbList] using hl
    | step_lie hr ih => exact ih
    | step_truth hr ih => exact ih

/-- Witness for C8 at the initial database. -/
theorem claim_C8_witness :
    (Database.all Database.init).length = DB_SIZE :=
  claim_C8.2.2 Database.init Reachable.init

/-- `update_peers` only touches the peer table, never the gossip cache. -/
theorem update_peers_gossips (st : NodeState) (now : Nat) (info : PeerInfo) :
    (update_peers st now info).1.gossips = st.gossips := by
  unfold update_peers
  split
  · rfl
  · split <;> rfl

/-- Claim C3: `gossip_received` preserves the at-most-one-record-per-
originator cache invariant (a newer `messageID` replaces the older
record), and a `GOSSIP` whose `messageID` equals the cached record's for
its originator changes nothing and sends nothing — neither cached again,
nor forwarded, nor answered with a `GOSSIP_REPLY`. -/
theorem claim_C3 (st : NodeState) (now : Nat) (data : GossipData)
    (sample : List Peer) (hInv : gossipCacheOk st.gossips) :
    gossipCacheOk (gossip_received st now data sample).1.gossips ∧
    ∀ g, st.gossips.find? (fun g' => g'.peer_name == data.name) = some g →
      g.id = data.messageID → gossip_received st now data sample = (st, []) := by
  constructor
  · show gossipCacheOk
      ((if (st.gossips.find? (fun g => g.peer_name == data.name)).all
            (fun g => g.id != data.messageID) = true then
          match update_peers st now data.toPeerInfo with
          | (st1, none) => (st1, ([] : List Msg))
          | (st1, some peer) =>
            ({ st1 with gossips :=
                match st.gossips.find? (fun g => g.peer_name == data.name) with
                | some l => (st1.gossips ++ [Gossip.ofData data]).erase l
                | none => st1.gossips ++ [Gossip.ofData data] },
              sample.map (Msg.forward data) ++
                [Msg.gossip_reply st.host st.port st.name peer])
        else (st, [])).1.gossips)
    by_cases hc :
        (st.gossips.find? (fun g => g.peer_name == data.name)).all
          (fun g => g.id != data.messageID) = true
    · rw [if_pos hc]
      rcases hup : update_peers st now data.toPeerInfo with ⟨st1, peer?⟩
      have hgs : st1.gossips = st.gossips := by
        have h := update_peers_gossips st now data.toPeerInfo
        rw [hup] at h
        exact h
      rcases peer? with _ | peer
      · exact hgs ▸ hInv
      · show gossipCacheOk
          (match st.gossips.find? (fun g => g.peer_name == data.name) with
            | some l => (st1.gossips ++ [Gossip.ofData data]).erase l
            | none => st1.gossips ++ [Gossip.ofData data])
        rcases hl : st.gossips.find? (fun g => g.peer_name == data.name)
          with _ | l
        · -- no cached record for this name: append keeps names distinct
          have hnone := List.find?_eq_none.1 hl
          rw [hl]
          show gossipCacheOk (st1.gossips ++ [Gossip.ofData data])
          rw [hgs]
          refine List.pairwise_append.2 ⟨hInv, List.pairwise_singleton _ _, ?_⟩
          intro a ha b hb
          rw [List.mem_singleton] at hb
          subst hb
          intro hn
          exact absurd (by simpa using hn) (by simpa using hnone a ha)
        · -- a cached record exists with a different id: it is replaced
          have hlmem : l ∈ st.gossips := List.mem_of_find?_eq_some hl
          have hlname : l.peer_name = data.name := by
            have h := List.find?_some hl
            simpa using h
          have hid : l.id ≠ data.messageID := by
            rw [hl] at hc
            simpa using hc
          have hnodup : st.gossips.Nodup :=
            hInv.imp (fun hne => by rintro rfl; exact hne rfl)
          have hsymm : Symmetric (fun a b : Gossip => a.peer_name ≠ b.peer_name) :=
            fun x y hxy h => hxy h.symm
          have huniq : ∀ a ∈ st.gossips, a.peer_name = data.name → a = l := by
            intro a ha hname
            by_contra hne
            exact hInv.forall hsymm ha hlmem hne (hname.trans hlname.symm)
          rw [hl]
          show gossipCacheOk ((st1.gossips ++ [Gossip.ofData data]).erase l)
          rw [hgs, List.erase_append_left _ hlmem]
          refine List.pairwise_append.2
            ⟨hInv.sublist (st.gossips.erase_sublist l),
             List.pairwise_singleton _ _, ?_⟩
          intro a ha b hb
          rw [List.mem_singleton] at hb
          subst hb
          show ¬ a.peer_name = data.name
          intro hname
          have ha' : a = l := huniq a (List.mem_of_mem_erase ha) hname
          subst ha'
          exact hnodup.not_mem_erase ha
    · rw [if_neg hc]
      exact hInv
  · intro g hfind hid
    show (if (st.gossips.find? (fun g => g.peer_name == data.name)).all
            (fun g => g.id != data.messageID) = true then
          match update_peers st now data.toPeerInfo with
          | (st1, none) => (st1, ([] : List Msg))
          | (st1, some peer) =>
            ({ st1 with gossips :=
                match st.gossips.find? (fun g => g.peer_name == data.name) with
                | some l => (st1.gossips ++ [Gossip.ofData data]).erase l
                | none => st1.gossips ++ [Gossip.ofData data] },
              sample.map (Msg.forward data) ++
                [Msg.gossip_reply st.host st.port st.name peer])
        else (st, [])) = (st, [])
    rw [hfind]
    have hcond : (Option.all (fun g' => g'.id != data.messageID) (some g)) = false := by
      simp [hid]
    rw [hcond]
    simp

/-- Witness for C3 at a concrete cache holding one record, replayed with
the cached `messageID`. -/
theorem claim_C3_witness :
    gossip_received
        ⟨"n", "h", 1, [], [⟨"id1", "p", ⟨⟨"p", "ph", 9⟩, "id1"⟩⟩]⟩ 0
        ⟨⟨"p", "ph", 9⟩, "id1"⟩ [] =
      (⟨"n", "h", 1, [], [⟨"id1", "p", ⟨⟨"p", "ph", 9⟩, "id1"⟩⟩]⟩, []) :=
  (claim_C3 ⟨"n", "h", 1, [], [⟨"id1", "p", ⟨⟨"p", "ph", 9⟩, "id1"⟩⟩]⟩ 0
      ⟨⟨"p", "ph", 9⟩, "id1"⟩ [] (by simp [gossipCacheOk])).2
    ⟨"id1", "p", ⟨⟨"p", "ph", 9⟩, "id1"⟩⟩ (by rfl) rfl

/-- Counterexample to claim C6 as stated: `init_db` guards the reset with
Python `any`, which treats the empty string like absent.  With a local
database holding the non-absent entry `""` at index 0, a valid reply is
still applied, although not every entry was absent. -/
theorem claim_C6_cex :
    ([some "", none, none, none, none] : List Val).all Option.isNone = false ∧
    (init_db ⟨[some "", none, none, none, none], false⟩
        [⟨[⟨"p", "h", 1, 0, none⟩], 0,
          some (.list [.str "a", .null, .null, .null, .null])⟩]).entries =
      [some "a", none, none, none, none] := by
  exact ⟨rfl, rfl⟩

/-- Claim C6 (amended): the bootstrap applies a received database via
`reset` only for the first reply that passes validation, and only if every
entry of the local database is still falsy — absent or the empty string —
at that moment; it gives up, leaving the local database unchanged and the
node functional, after 10 counted failures (draws from an empty peer table
or of peers already marked bad) or once the bad-peer set has grown to the
size of the current peer table. -/
theorem claim_C6 :
    (∀ (trace : List BootStep) (count : Nat) (bad : List Peer) (db : JValue),
        bootLoop trace count bad = .got db → validDbJson db = true) ∧
    (∀ (trace : List BootStep) (count : Nat) (bad : List Peer),
        (∀ step ∈ trace, ∀ db, step.outcome = some db →
          validDbJson db = false) →
        ∀ db, bootLoop trace count bad ≠ .got db) ∧
    (∀ (d : Database) (trace : List BootStep),
        pyAny (Database.all d) = true → init_db d trace = d) ∧
    (∀ (d : Database) (trace : List BootStep),
        (∀ db, bootLoop trace 0 [] ≠ .got db) → init_db d trace = d) ∧
    (∀ (step : BootStep) (rest : List BootStep) (count : Nat)
        (bad : List Peer), step.peers = [] → count + 1 ≥ 10 →
          bootLoop (step :: rest) count bad = .gaveUp) ∧
    (∀ (step : BootStep) (rest : List BootStep) (count : Nat)
        (bad : List Peer) (peer : Peer),
        step.peers.get? (step.pick % step.peers.length) = some peer →
          peer ∈ bad → bad.length = step.peers.length →
          bootLoop (step :: rest) count bad = .gaveUp) := by
  have hvalid : ∀ (trace : List BootStep) (count : Nat) (bad : List Peer)
      (db : JValue), bootLoop trace count bad = .got db →
        validDbJson db = true := by
    intro trace
    induction trace with
    | nil => intro count bad db h; cases h
    | cons step rest ih =>
      intro count bad db h
      unfold bootLoop at h
      rcases hg : step.peers.get? (step.pick % step.peers.length) with _ | peer <;>
        simp only [hg] at h
      · by_cases hten : count + 1 ≥ 10
        · rw [if_pos hten] at h; cases h
        · rw [if_neg hten] at h; exact ih _ _ _ h
      · by_cases hb : peer ∈ bad
        · rw [if_pos hb] at h
          by_cases hgu : bad.length = step.peers.length ∨ count + 1 ≥ 10
          · rw [if_pos hgu] at h; cases h
          · rw [if_neg hgu] at h; exact ih _ _ _ h
        · rw [if_neg hb] at h
          rcases ho : step.outcome with _ | dbr <;> simp only [ho] at h
          · exact ih _ _ _ h
          · by_cases hv : validDbJson dbr = true
            · rw [if_pos hv] at h
              cases h
              exact hv
            · rw [if_neg hv] at h
              exact ih _ _ _ h
  refine ⟨hvalid, ?_, ?_, ?_, ?_, ?_⟩
  · -- with no valid reply anywhere in the trace, nothing is ever applied
    intro trace
    induction trace with
    | nil => intro count bad hno db h; cases h
    | cons step rest ih =>
      intro count bad hno db h
      have hno' : ∀ s ∈ rest, ∀ db, s.outcome = some db →
          validDbJson db = false := by
        intro s hs
        exact hno s (List.mem_cons_of_mem _ hs)
      unfold bootLoop at h
      rcases hg : step.peers.get? (step.pick % step.peers.length) with _ | peer <;>
        simp only [hg] at h
      · by_cases hten : count + 1 ≥ 10
        · rw [if_pos hten] at h; cases h
        · rw [if_neg hten] at h; exact ih _ _ hno' db h
      · by_cases hb : peer ∈ bad
        · rw [if_pos hb] at h
          by_cases hgu : bad.length = step.peers.length ∨ count + 1 ≥ 10
          · rw [if_pos hgu] at h; cases h
          · rw [if_neg hgu] at h; exact ih _ _ hno' db h
        · rw [if_neg hb] at h
          rcases ho : step.outcome with _ | dbr <;> simp only [ho] at h
          · exact ih _ _ hno' db h
          · rw [hno step (List.mem_cons_self _ _) dbr ho] at h
            simp only [Bool.false_eq_true, if_false] at h
            exact ih _ _ hno' db h
  · intro d trace hany
    unfold init_db
    split
    · rw [hany]
      simp
    · rfl
  · intro d trace hno
    unfold init_db
    split
    · next dbv hdb => exact absurd hdb (hno dbv)
    · rfl
  · intro step rest count bad hpeers hcount
    unfold bootLoop
    simp only [hpeers, List.get?_nil]
    rw [if_pos hcount]
  · intro step rest count bad peer hg hbad hlen
    unfold bootLoop
    simp only [hg]
    rw [if_pos hbad, if_pos (Or.inl hlen)]

/-- Witness for C6: the loop gives up on the tenth failure against an
empty peer table, and a database with a non-falsy entry is never reset. -/
theorem claim_C6_witness :
    bootLoop [⟨[], 0, none⟩] 9 [] = .gaveUp ∧
    init_db ⟨[some "x", none, none, none, none], false⟩
        [⟨[⟨"p", "h", 1, 0, none⟩], 0,
          some (.list [.str "a", .null, .null, .null, .null])⟩] =
      ⟨[some "x", none, none, none, none], false⟩ :=
  ⟨claim_C6.2.2.2.2.1 ⟨[], 0, none⟩ [] 9 [] rfl (by decide),
   claim_C6.2.2.1 ⟨[some "x", none, none, none, none], false⟩ _ rfl⟩

/-- One step of `firstOcc` from the right. -/
theorem firstOcc_append {α : Type} [DecidableEq α] (l : List α) (a : α) :
    firstOcc (l ++ [a]) =
      if a ∈ firstOcc l then firstOcc l else firstOcc l ++ [a] := by
  unfold firstOcc
  rw [List.foldl_append]
  simp only [List.foldl_cons, List.foldl_nil]

/-- Membership in the first-occurrence list is membership in the list. -/
theorem mem_firstOcc {α : Type} [DecidableEq α] (l : List α) :
    ∀ a, a ∈ firstOcc l ↔ a ∈ l := by
  induction l using List.reverseRecOn with
  | nil => intro a; rfl
  | append_singleton l b ih =>
    intro a
    rw [firstOcc_append]
    by_cases hb : b ∈ firstOcc l
    · rw [if_pos hb]
      rw [ih] at hb
      rw [ih a]
      simp only [List.mem_append, List.mem_singleton]
      constructor
      · exact Or.inl
      · rintro (ha | rfl)
        · exact ha
        · exact hb
    · rw [if_neg hb]
      simp [ih a]

/-- The first-occurrence list never repeats an element. -/
theorem firstOcc_nodup {α : Type} [DecidableEq α] (l : List α) :
    (firstOcc l).Nodup := by
  induction l using List.reverseRecOn with
  | nil => exact List.nodup_nil
  | append_singleton l b ih =>
    rw [firstOcc_append]
    by_cases hb : b ∈ firstOcc l
    · rw [if_pos hb]
      exact ih
    · rw [if_neg hb]
      simp [List.nodup_append, ih, hb]

/-- One step of `counterOf` from the right. -/
theorem counterOf_append {α : Type} [DecidableEq α] (l : List α) (a : α) :
    counterOf (l ++ [a]) = counterIncr (counterOf l) a := by
  unfold counterOf
  rw [List.foldl_append]
  simp only [List.foldl_cons, List.foldl_nil]

/-- The counter built from a list holds exactly the list's distinct values
in first-occurrence order, each with its multiplicity. -/
theorem counterOf_eq {α : Type} [DecidableEq α] (l : List α) :
    counterOf l = (firstOcc l).map (fun v => (v, l.count v)) := by
  induction l using List.reverseRecOn with
  | nil => rfl
  | append_singleton l a ih =>
    rw [counterOf_append, ih, firstOcc_append]
    by_cases ha : a ∈ firstOcc l
    · rw [if_pos ha]
      have hmem : a ∈ l := (mem_firstOcc l a).1 ha
      have hany : ((firstOcc l).map (fun v => (v, l.count v))).any
          (fun p => p.1 == a) = true := by
        rw [List.any_eq_true]
        exact ⟨(a, l.count a), List.mem_map_of_mem _ ha, by simp⟩
      unfold counterIncr
      rw [if_pos hany, List.map_map]
      refine List.map_congr_left ?_
      intro v hv
      by_cases hva : v = a
      · subst hva
        simp [List.count_append, List.count_singleton]
      · have : ¬ (v == a) = true := by simp [hva]
        simp only [Function.comp_apply, this, if_false,
          List.count_append, List.count_singleton]
        have hav : ¬ (a == v) = true := by
          simp only [beq_iff_eq]
          exact fun h => hva h.symm
        simp [hav]
    · rw [if_neg ha]
      have hmem : a ∉ l := fun h => ha ((mem_firstOcc l a).2 h)
      have hany : ((firstOcc l).map (fun v => (v, l.count v))).any
          (fun p => p.1 == a) = false := by
        rw [List.any_eq_false]
        rintro ⟨v, cnt⟩ hp
        obtain ⟨w, hw, heq⟩ := List.mem_map.1 hp
        cases heq
        simp only [beq_iff_eq]
        rintro rfl
        exact ha hw
      unfold counterIncr
      rw [hany]
      simp only [Bool.false_eq_true, if_false, List.map_append]
      congr 1
      · refine List.map_congr_left ?_
        intro v hv
        have hva : v ≠ a := by
          rintro rfl
          exact ha hv
        have hav : ¬ (a == v) = true := by
          simp only [beq_iff_eq]
          exact fun h => hva h.symm
        simp [List.count_append, List.count_singleton, hav]
      · have : l.count a = 0 := List.count_eq_zero_of_not_mem hmem
        simp [List.count_append, List.count_singleton, this]

/-- `most_common` yields nothing only on an empty counter. -/
theorem mostCommonEntry_eq_none {α : Type} (c : Counter α) :
    mostCommonEntry c = none ↔ c = [] := by
  cases c with
  | nil => simp [mostCommonEntry]
  | cons p c' =>
    simp only [mostCommonEntry]
    cases mostCommonEntry c' <;> simp

/-- The entry `most_common` picks is the first entry holding the maximal
count: every entry before it counts strictly less, every entry at most as
much. -/
theorem mostCommonEntry_split {α : Type} (c : Counter α) (hne : c ≠ []) :
    ∃ l1 e l2, c = l1 ++ e :: l2 ∧ mostCommonEntry c = some e ∧
      (∀ q ∈ l1, q.2 < e.2) ∧ ∀ q ∈ c, q.2 ≤ e.2 := by
  induction c with
  | nil => exact absurd rfl hne
  | cons p c' ih =>
    rcases hme : mostCommonEntry c' with _ | e'
    · have hc' : c' = [] := (mostCommonEntry_eq_none c').1 hme
      subst hc'
      refine ⟨[], p, [], rfl, rfl, by simp, by simp⟩
    · have hc'ne : c' ≠ [] := by
        rintro rfl
        cases hme
      obtain ⟨l1, e, l2, hdec, hmost, hlt, hle⟩ := ih hc'ne
      rw [hme] at hmost
      injection hmost with he
      subst he
      by_cases hgt : e'.2 > p.2
      · refine ⟨p :: l1, e', l2, by rw [hdec, List.cons_append], ?_, ?_, ?_⟩
        · show mostCommonEntry (p :: c') = some e'
          simp only [mostCommonEntry, hme]
          rw [if_pos hgt]
        · intro q hq
          rcases List.mem_cons.1 hq with rfl | hq
          · exact hgt
          · exact hlt q hq
        · intro q hq
          rcases List.mem_cons.1 hq with rfl | hq
          · exact Nat.le_of_lt hgt
          · exact hle q hq
      · refine ⟨[], p, c', rfl, ?_, by simp, ?_⟩
        · show mostCommonEntry (p :: c') = some p
          simp only [mostCommonEntry, hme]
          rw [if_neg hgt]
        · intro q hq
          rcases List.mem_cons.1 hq with rfl | hq
          · exact Nat.le_refl _
          · exact Nat.le_trans (hle q hq) (Nat.le_of_not_lt hgt)

/-- Elements are listed in `firstOcc` in order of their first occurrence:
anything before `v` in `firstOcc l` first occurs in `l` strictly before
`v` does. -/
theorem indexOf_lt_of_firstOcc_split {α : Type} [DecidableEq α] (l : List α) :
    ∀ (f1 : List α) (v : α) (f2 : List α), firstOcc l = f1 ++ v :: f2 →
      ∀ w ∈ f1, l.indexOf w < l.indexOf v := by
  induction l using List.reverseRecOn with
  | nil =>
    intro f1 v f2 h w hw
    rw [show firstOcc ([] : List α) = [] from rfl] at h
    exact absurd h.symm (by simp)
  | append_singleton l a ih =>
    intro f1 v f2 h w hw
    rw [firstOcc_append] at h
    by_cases hain : a ∈ firstOcc l
    · rw [if_pos hain] at h
      have hw1 : w ∈ l := (mem_firstOcc l w).1 (h ▸ List.mem_append_left _ hw)
      have hv1 : v ∈ l := (mem_firstOcc l v).1
        (h ▸ List.mem_append_right _ (List.mem_cons_self _ _))
      rw [List.indexOf_append_of_mem hw1, List.indexOf_append_of_mem hv1]
      exact ih f1 v f2 h w hw
    · rw [if_neg hain] at h
      have hanotl : a ∉ l := fun hx => hain ((mem_firstOcc l a).2 hx)
      rcases List.eq_nil_or_concat' f2 with rfl | ⟨L, b, rfl⟩
      · obtain ⟨h1, h2⟩ := List.append_inj' h rfl
        obtain rfl : a = v := by simpa using h2
        subst h1
        have hw1 : w ∈ l := (mem_firstOcc l w).1 hw
        rw [List.indexOf_append_of_mem hw1,
          List.indexOf_append_of_not_mem hanotl]
        simp only [List.indexOf_cons_self, Nat.add_zero]
        exact List.indexOf_lt_length.2 hw1
      · rw [show f1 ++ v :: (L ++ [b]) = (f1 ++ v :: L) ++ [b] by simp] at h
        obtain ⟨h1, h2⟩ := List.append_inj' h rfl
        have hw1 : w ∈ l := (mem_firstOcc l w).1
          (h1 ▸ List.mem_append_left _ hw)
        have hv1 : v ∈ l := (mem_firstOcc l v).1
          (h1 ▸ List.mem_append_right _ (List.mem_cons_self _ _))
        rw [List.indexOf_append_of_mem hw1, List.indexOf_append_of_mem hv1]
        exact ih f1 v L h1 w hw

/-- The counter pipeline computes the spec's plurality: on any non-empty
value list, `most_common(1)[0][0]` of the arrival-order counter is a
most-frequent value, first-seen among ties. -/
theorem mostCommon1_counterOf_isPlurality {α : Type} [DecidableEq α]
    (l : List α) (hne : l ≠ []) :
    ∃ r, mostCommon1 (counterOf l) = some r ∧ isPlurality l r := by
  have hc : counterOf l = (firstOcc l).map (fun v => (v, l.count v)) :=
    counterOf_eq l
  have hfne : firstOcc l ≠ [] := by
    obtain ⟨m, hm⟩ := List.exists_mem_of_ne_nil l hne
    exact List.ne_nil_of_mem ((mem_firstOcc l m).2 hm)
  have hcne : counterOf l ≠ [] := by
    rw [hc]
    simpa using hfne
  obtain ⟨l1, e, l2, hdec, hmost, hlt, hle⟩ :=
    mostCommonEntry_split (counterOf l) hcne
  -- split the first-occurrence list at the picked entry
  obtain ⟨p1, rest1, hsplit, hmap1, hmap2⟩ :=
    List.map_eq_append_iff.1 (hc.symm.trans hdec)
  obtain ⟨v0, p2, hrest, hv0, hmap3⟩ := List.map_eq_cons_iff.1 hmap2
  subst hrest
  have hv0fst : e.1 = v0 := by rw [← hv0]
  have hv0cnt : e.2 = l.count v0 := by rw [← hv0]
  have hv0memFO : v0 ∈ firstOcc l := by
    rw [hsplit]
    exact List.mem_append_right _ (List.mem_cons_self _ _)
  have hv0mem : v0 ∈ l := (mem_firstOcc l v0).1 hv0memFO
  refine ⟨v0, ?_, hv0mem, ?_, ?_⟩
  · unfold mostCommon1
    rw [hmost]
    simp [hv0fst]
  · -- maximality of the count
    intro v
    by_cases hv : v ∈ l
    · have hvFO : v ∈ firstOcc l := (mem_firstOcc l v).2 hv
      have : (v, l.count v) ∈ counterOf l := by
        rw [hc]
        exact List.mem_map_of_mem _ hvFO
      have := hle _ this
      rw [← hv0cnt] at *
      simpa using this
    · rw [List.count_eq_zero_of_not_mem hv]
      exact Nat.zero_le _
  · -- first-seen among ties
    intro v hv hcnt
    have hvFO : v ∈ firstOcc l := (mem_firstOcc l v).2 hv
    rw [hsplit] at hvFO
    rcases List.mem_append.1 hvFO with hvp1 | hvrest
    · -- v would sit strictly before the pick, with a strictly smaller count
      exfalso
      have : (v, l.count v) ∈ l1 := by
        rw [← hmap1]
        exact List.mem_map_of_mem _ hvp1
      have := hlt _ this
      rw [hv0cnt, hcnt] at this
      exact Nat.lt_irrefl _ this
    · rcases List.mem_cons.1 hvrest with rfl | hvp2
      · exact Nat.le_refl _
      · obtain ⟨q1, q2, rfl⟩ := List.append_of_mem hvp2
        have hsplit' : firstOcc l = (p1 ++ v0 :: q1) ++ v :: q2 := by
          rw [hsplit]
          simp
        have := indexOf_lt_of_firstOcc_split l _ v q2 hsplit' v0
          (List.mem_append_right _ (List.mem_cons_self _ _))
        exact Nat.le_of_lt this

/-- Claim C2: for every `do_consensus` invocation on an in-range index,
whatever subset of peers actually replied (`replies` is arbitrary), the
value written into `db[index]` and the value returned to the caller both
equal the plurality of the reply multiset with one occurrence of the
caller's own `received` value added — most frequent, first-seen on ties. -/
theorem claim_C2 (d : Database) (index : Nat) (replies : List Val)
    (received : Val) (h : index < d.entries.length) :
    ∃ d' r, do_consensus d index replies received = .ok (d', r) ∧
      d'.entries[index]? = some r ∧ isPlurality (replies ++ [received]) r := by
  have hne : replies ++ [received] ≠ [] := by simp
  obtain ⟨r, hmc, hplur⟩ :=
    mostCommon1_counterOf_isPlurality (replies ++ [received]) hne
  have hexec : Consensus.execute replies received = r := by
    unfold Consensus.execute
    rw [← counterOf_append, hmc]
    rfl
  have hset : Database.set d index (Consensus.execute replies received) =
      .ok ⟨d.entries.set index r, d.lying⟩ := by
    rw [hexec]
    unfold Database.set
    rw [if_pos h]
  have hget : (d.entries.set index r)[index]? = some r :=
    List.getElem?_set_self h
  refine ⟨⟨d.entries.set index r, d.lying⟩, r, ?_, hget, hplur⟩
  unfold do_consensus
  rw [hset]
  have hnl : Database.get_no_lie ⟨d.entries.set index r, d.lying⟩ index = r := by
    unfold Database.get_no_lie
    rw [List.getD_eq_getElem?_getD, hget]
    rfl
  show Except.ok ((⟨d.entries.set index r, d.lying⟩ : Database),
      Database.get_no_lie ⟨d.entries.set index r, d.lying⟩ index) =
    Except.ok ((⟨d.entries.set index r, d.lying⟩ : Database), r)
  rw [hnl]

/-- Witness for C2 at a concrete consensus: one reply `"a"`, own received
value absent; the tie resolves to the first-seen reply. -/
theorem claim_C2_witness :
    ∃ d' r, do_consensus Database.init 0 [some "a"] none = .ok (d', r) ∧
      d'.entries[0]? = some r ∧ isPlurality ([some "a"] ++ [none]) r :=
  claim_C2 Database.init 0 [some "a"] none (by decide)
